import Mathlib

/-!
Verification of the nixery container registry (Go sources) against its
natural-language specification.

The development shallowly embeds the relevant Go functions:

* the layer grouper (`layers` package: `Layer`, `merge`, `groupLayer`,
  `dominate`, `Group`),
* the image-name parser (`builder` package: `convenienceNames`,
  `ImageFromName`),
* the manifest builder (`manifest` package: `Manifest`, `configLayer`),
* the manifest HTTP handler (`serveManifestTag`),
* the keyed-mutex single-flight discipline of the build orchestrator.

Go machine integers (`uint64`) are embedded as `Nat` with explicit
reduction modulo `2 ^ 64` wherever the source can overflow.  Go's
byte-lexicographic string order (`sort.Strings`) is embedded as a
lexicographic comparison of unicode scalar values, which agrees with the
byte order because UTF-8 is order-preserving.  `sort.Slice` / `sort.Strings`
are embedded as a structural insertion sort; all statements proved about
sorted output are stated so that they hold for any correct sorting
algorithm (via permutation + sortedness), except where ties matter, in
which case the tie behaviour of Go's small-slice insertion sort (stable)
coincides with the embedding.
-/

/-! ## Generic sorting utilities (embedding of `sort.Slice` / `sort.Strings`) -/

/-- Insert an element into a sorted list, keeping it sorted w.r.t. `le`. -/
def insertLe {α : Type} (le : α → α → Bool) (a : α) : List α → List α
  | [] => [a]
  | b :: bs => if le a b then a :: b :: bs else b :: insertLe le a bs

/-- Insertion sort by a boolean comparison; models Go's in-place slice sort. -/
def sortLe {α : Type} (le : α → α → Bool) : List α → List α
  | [] => []
  | a :: as => insertLe le a (sortLe le as)

theorem insertLe_perm {α : Type} (le : α → α → Bool) (a : α) (l : List α) :
    (insertLe le a l).Perm (a :: l) := by
  induction l with
  | nil => simp [insertLe]
  | cons b bs ih =>
    simp only [insertLe]
    by_cases h : le a b
    · simp [h]
    · simp only [h, if_neg]
      exact (ih.cons b).trans (List.Perm.swap a b bs)

theorem sortLe_perm {α : Type} (le : α → α → Bool) (l : List α) :
    (sortLe le l).Perm l := by
  induction l with
  | nil => simp [sortLe]
  | cons a as ih =>
    exact (insertLe_perm le a (sortLe le as)).trans (ih.cons a)

theorem mem_sortLe {α : Type} (le : α → α → Bool) (a : α) (l : List α) :
    a ∈ sortLe le l ↔ a ∈ l :=
  (sortLe_perm le l).mem_iff

theorem insertLe_pairwise {α : Type} (le : α → α → Bool)
    (htrans : ∀ a b c, le a b = true → le b c = true → le a c = true)
    (htot : ∀ a b, (le a b || le b a) = true) (a : α) (l : List α)
    (hl : l.Pairwise (fun x y => le x y = true)) :
    (insertLe le a l).Pairwise (fun x y => le x y = true) := by
  induction l with
  | nil => simp [insertLe]
  | cons b bs ih =>
    rcases List.pairwise_cons.1 hl with ⟨hb, hbs⟩
    simp only [insertLe]
    by_cases h : le a b = true
    · simp only [h, if_true]
      refine List.pairwise_cons.2 ⟨?_, hl⟩
      intro x hx
      rcases List.mem_cons.1 hx with hx | hx
      · exact hx ▸ h
      · exact htrans a b x h (hb x hx)
    · simp only [h, if_false]
      refine List.pairwise_cons.2 ⟨?_, ih hbs⟩
      intro x hx
      have hx' : x ∈ a :: bs := (insertLe_perm le a bs).mem_iff.1 hx
      rcases List.mem_cons.1 hx' with hx' | hx'
      · have := htot a b
        simp only [h, Bool.false_or] at this
        exact hx' ▸ this
      · exact hb x hx'

theorem sortLe_pairwise {α : Type} (le : α → α → Bool)
    (htrans : ∀ a b c, le a b = true → le b c = true → le a c = true)
    (htot : ∀ a b, (le a b || le b a) = true) (l : List α) :
    (sortLe le l).Pairwise (fun x y => le x y = true) := by
  induction l with
  | nil => simp [sortLe]
  | cons a as ih => exact insertLe_pairwise le htrans htot a (sortLe le as) ih

/-- Sorted lists that are permutations of each other and whose keys are
pairwise distinct are equal; used to show that an unstable sort has a
unique result when no ties exist. -/
theorem sorted_perm_nodup_key_eq {α : Type} (le : α → α → Bool)
    (key : α → Nat) (hkey : ∀ a b, le a b = true → le b a = true → key a = key b) :
    ∀ (l₁ l₂ : List α), l₁.Perm l₂ →
      l₁.Pairwise (fun x y => le x y = true) →
      l₂.Pairwise (fun x y => le x y = true) →
      (l₁.map key).Nodup → l₁ = l₂ := by
  intro l₁
  induction l₁ with
  | nil => intro l₂ hp _ _ _; exact (hp.nil_eq).symm ▸ rfl
  | cons a t₁ ih =>
    intro l₂ hp hs₁ hs₂ hnd
    cases l₂ with
    | nil => exact absurd hp.symm.nil_eq (by simp)
    | cons b t₂ =>
      rcases List.pairwise_cons.1 hs₁ with ⟨ha, ht₁⟩
      rcases List.pairwise_cons.1 hs₂ with ⟨hble, ht₂⟩
      rw [List.map_cons] at hnd
      rcases List.nodup_cons.1 hnd with ⟨hnotin, hndt⟩
      by_cases hab : a = b
      · subst hab
        have htp : t₁.Perm t₂ := hp.cons_inv
        have := ih t₂ htp ht₁ ht₂ hndt
        simp [this]
      · exfalso
        have hbmem : b ∈ a :: t₁ := hp.symm.subset (List.mem_cons_self b t₂)
        have hamem : a ∈ b :: t₂ := hp.subset (List.mem_cons_self a t₁)
        have hb₁ : b ∈ t₁ := by
          rcases List.mem_cons.1 hbmem with h | h
          · exact absurd h.symm hab
          · exact h
        have ha₂ : a ∈ t₂ := by
          rcases List.mem_cons.1 hamem with h | h
          · exact absurd h hab
          · exact h
        have h₁ : le a b = true := ha b hb₁
        have h₂ : le b a = true := hble a ha₂
        have hk : key a = key b := hkey a b h₁ h₂
        exact hnotin (hk ▸ List.mem_map_of_mem key hb₁)


/-! ## Go byte-lexicographic string order (`sort.Strings`, string `<`) -/

/-- Lexicographic comparison of character lists by unicode scalar value.
Agrees with Go's byte-wise string comparison because UTF-8 encoding is
order-preserving. -/
def lexLe : List Char → List Char → Bool
  | [], _ => true
  | _ :: _, [] => false
  | a :: as, b :: bs =>
    if a.toNat < b.toNat then true
    else if b.toNat < a.toNat then false
    else lexLe as bs

/-- Go's string ordering used by `sort.Strings`. -/
def strLe (a b : String) : Bool := lexLe a.toList b.toList

theorem lexLe_total : ∀ as bs, (lexLe as bs || lexLe bs as) = true := by
  intro as
  induction as with
  | nil => intro bs; simp [lexLe]
  | cons a as ih =>
    intro bs
    cases bs with
    | nil => simp [lexLe]
    | cons b bs =>
      simp only [lexLe]
      rcases Nat.lt_trichotomy a.toNat b.toNat with h | h | h
      · simp [h]
      · simp [h, Nat.lt_irrefl, ih bs]
      · simp [h, Nat.lt_asymm h]

theorem lexLe_trans :
    ∀ as bs cs, lexLe as bs = true → lexLe bs cs = true → lexLe as cs = true := by
  intro as
  induction as with
  | nil => intro bs cs _ _; simp [lexLe]
  | cons a as ih =>
    intro bs cs h₁ h₂
    cases bs with
    | nil => simp [lexLe] at h₁
    | cons b bs =>
      cases cs with
      | nil => simp [lexLe] at h₂
      | cons c cs =>
        simp only [lexLe] at h₁ h₂ ⊢
        rcases Nat.lt_trichotomy a.toNat b.toNat with hab | hab | hab
        · rcases Nat.lt_trichotomy b.toNat c.toNat with hbc | hbc | hbc
          · simp [Nat.lt_trans hab hbc]
          · simp [hbc ▸ hab]
          · simp [hbc, Nat.lt_asymm hbc] at h₂
        · rcases Nat.lt_trichotomy b.toNat c.toNat with hbc | hbc | hbc
          · simp [hab ▸ hbc]
          · have hac : a.toNat = c.toNat := hab.trans hbc
            simp only [hab, Nat.lt_irrefl, if_false] at h₁
            simp only [hbc, Nat.lt_irrefl, if_false] at h₂
            simp [hac, Nat.lt_irrefl, ih bs cs h₁ h₂]
          · simp [hbc, Nat.lt_asymm hbc] at h₂
        · simp [hab, Nat.lt_asymm hab] at h₁

theorem strLe_total : ∀ a b : String, (strLe a b || strLe b a) = true := by
  intro a b; exact lexLe_total a.toList b.toList

theorem strLe_trans :
    ∀ a b c : String, strLe a b = true → strLe b c = true → strLe a c = true := by
  intro a b c h₁ h₂; exact lexLe_trans a.toList b.toList c.toList h₁ h₂

/-! ## Layer grouper data model (`layers` package, src/unnamed/part_021)

The Go code builds a `gonum` directed graph from the resolver output and
computes its dominator tree with `gonum.org/v1/gonum/graph/flow.Dominators`,
an external library that is not part of this repository.  The dominator
tree is therefore taken as a parameter of the embedding, constrained by
the library's contract: it is a tree on the reachable nodes, rooted at
the synthetic root node with ID `0`.  The order in which
`DominatorTree.DominatedBy` enumerates the root's children is not
specified by the library (it depends on Go map iteration order inside the
graph structure), so that order is a second parameter. -/

/-- Single node of the resolver's runtime graph (`closureSize`, `path`,
`references` as in the JSON). -/
structure GraphNode where
  size : Nat
  path : String
  refs : List String
deriving DecidableEq, Repr

/-- RuntimeGraph mirrors the Go struct of the same name: the top-level
paths (`exportReferencesGraph.graph`) and the node list (`graph`). -/
structure RuntimeGraph where
  references : List String
  graph : List GraphNode
deriving DecidableEq, Repr

/-- Popularity data; the Go type is `map[string]int`, embedded as an
association list with unique keys (lookup takes the first match). -/
abbrev Popularity : Type := List (String × Nat)

/-- Reduction modulo 2^64, applied wherever the Go code computes on
`uint64` values that may overflow. -/
def u64 (x : Nat) : Nat := x % (2 ^ 64)

/-- Layer mirrors the Go struct: store paths plus a merge rating. -/
structure Layer where
  contents : List String
  mergeRating : Nat
deriving DecidableEq, Repr

/-- Layer.merge from the Go source: contents are concatenated (the Go
`append`), ratings are added (`uint64` addition). -/
def Layer.merge (a b : Layer) : Layer :=
  { contents := a.contents ++ b.contents
    mergeRating := u64 (a.mergeRating + b.mergeRating) }

/-- Character class `[a-z0-9]` from the `nixRegexp` store-path regex. -/
def isStoreHashChar (c : Char) : Bool :=
  (97 ≤ c.toNat && c.toNat ≤ 122) || (48 ≤ c.toNat && c.toNat ≤ 57)

/-- Attempt to strip the anchored prefix `/nix/store/[a-z0-9]+-` from a
character list; `none` when the regex does not match at the start. -/
def stripStorePre (cs : List Char) : Option (List Char) :=
  let pre := "/nix/store/".toList
  if cs.take pre.length = pre then
    let rest := cs.drop pre.length
    let run := rest.takeWhile isStoreHashChar
    match rest.dropWhile isStoreHashChar with
    | '-' :: tail => if run.isEmpty then none else some tail
    | _ => none
  else none

/-- DOTID of a closure: the store path with `/nix/store/<hash>-` stripped
(`nixRegexp.ReplaceAllString`); unchanged when the anchored regex does not
match. -/
def dotid (p : String) : String :=
  match stripStorePre p.toList with
  | some tail => ⟨tail⟩
  | none => p

/-- Popularity of a node, as assigned in `buildGraph`: the map entry for
the DOTID when present, otherwise 1. -/
def popOf (pop : Popularity) (p : String) : Nat :=
  match List.lookup (dotid p) pop with
  | some n => n
  | none => 1

/-- Path of the node with the given graph ID: ID 0 is the synthetic root
closure (path `image_root`), ID `i+1` is `graph[i]`. -/
def nodePath (g : RuntimeGraph) (v : Nat) : String :=
  if v = 0 then "image_root" else (g.graph.getD (v - 1) ⟨0, "", []⟩).path

/-- Closure size of the node with the given graph ID (`uint64`). -/
def nodeSize (g : RuntimeGraph) (v : Nat) : Nat :=
  if v = 0 then 0 else u64 (g.graph.getD (v - 1) ⟨0, "", []⟩).size

/-! ## Dominator tree (contract of `gonum`'s `flow.Dominators`)

Modelled from the spec: the external gonum library (not part of this
repository) computes the dominator tree of the built graph, rooted at the
synthetic root node.  The tree is represented by its immediate-dominator
table `dt` (`dt.getD v none = some u` meaning `u` immediately dominates
`v`); `DominatedBy u` is the set of `v` with immediate dominator `u`.
The spec premise that every node is reachable from the top-level roots
makes the dominator tree span all nodes, captured by `SpanningDomTree`
below (with an explicit per-node tree depth witnessing acyclicity). -/

/-- Ancestor chain of `v` in the dominator tree: `v`, its immediate
dominator, and so on, following at most `fuel` parent links. -/
def ancChain (dt : List (Option Nat)) : Nat → Nat → List Nat
  | 0, v => [v]
  | fuel + 1, v =>
    v :: (match dt.getD v none with
          | some u => ancChain dt fuel u
          | none => [])

/-- Membership of `v` in the dominator subtree rooted at `c`: `c` occurs
on `v`'s ancestor chain.  Fuel `dt.length` covers any acyclic tree. -/
def inSubtree (dt : List (Option Nat)) (c v : Nat) : Bool :=
  c ∈ ancChain dt dt.length v

/-- Store-path IDs of the dominator subtree rooted at `c`.  The Go
`groupLayer` enumerates the same set with a growing worklist
(`children = append(children, dt.DominatedBy(child.ID())...)`); since the
collected contents are sorted immediately afterwards, the embedding
enumerates the subtree by its membership predicate. -/
def subtreeIds (g : RuntimeGraph) (dt : List (Option Nat)) (c : Nat) : List Nat :=
  (List.range (g.graph.length + 1)).filter (fun v => inSubtree dt c v)

/-- groupLayer from the Go source: contents are the sorted store paths of
the subtree (`sort.Strings`), the merge rating is the root's popularity
times the total subtree size (`uint64` arithmetic). -/
def groupLayer (g : RuntimeGraph) (pop : Popularity) (dt : List (Option Nat))
    (c : Nat) : Layer :=
  { contents := sortLe strLe ((subtreeIds g dt c).map (nodePath g))
    mergeRating :=
      u64 (popOf pop (nodePath g c) * u64 (((subtreeIds g dt c).map (nodeSize g)).sum)) }

/-- Comparator of `dominate`'s `sort.Slice` call: ascending merge rating. -/
def layerLe (a b : Layer) : Bool := decide (a.mergeRating ≤ b.mergeRating)

/-- Merge loop of `dominate`, with explicit fuel (one unit per iteration;
each iteration shortens the list by one, so `length` fuel suffices):
while the layer count exceeds the budget, merge the first two layers of
the list and continue with the merged layer at the front.  The Go loop
indexes `layers[0]` and `layers[1]` unconditionally and would panic on a
list of fewer than two layers; that situation is unreachable for any
budget of at least 1. -/
def mergeSteps : Nat → Nat → List Layer → List Layer
  | 0, _, ls => ls
  | fuel + 1, budget, ls =>
    match ls with
    | a :: b :: rest =>
      if budget < rest.length + 2 then mergeSteps fuel budget (a.merge b :: rest)
      else a :: b :: rest
    | short => short

/-- Merge loop of `dominate` (`for len(layers) > budget { ... }`). -/
def mergeLoop (budget : Nat) (ls : List Layer) : List Layer :=
  mergeSteps ls.length budget ls

/-- Layer list of `dominate` before the merge loop: one layer per child
of the dominator-tree root, in the enumeration order `rootOrder` of
`dt.DominatedBy(root)`, sorted ascending by merge rating. -/
def initialLayers (g : RuntimeGraph) (pop : Popularity) (dt : List (Option Nat))
    (rootOrder : List Nat) : List Layer :=
  sortLe layerLe (rootOrder.map (groupLayer g pop dt))

/-- Group from the Go source (composition of `buildGraph` and `dominate`;
named `GroupLayers` here because `Group` is taken by Mathlib),
parameterised by the dominator tree `dt` of the built graph and by the
enumeration order `rootOrder` of the root's dominator children (both
produced by the external gonum library, see above). -/
def GroupLayers (g : RuntimeGraph) (pop : Popularity) (dt : List (Option Nat))
    (rootOrder : List Nat) (budget : Nat) : List Layer :=
  mergeLoop budget (initialLayers g pop dt rootOrder)

/-- Property of `rootOrder` guaranteed by the gonum contract: it
enumerates exactly the dominator children of the root node (ID 0), each
once; the enumeration order itself is unspecified. -/
def ValidRootOrder (dt : List (Option Nat)) (o : List Nat) : Prop :=
  o.Nodup ∧ (∀ v ∈ o, dt.getD v none = some 0) ∧
    (∀ v ∈ List.range dt.length, dt.getD v none = some 0 → v ∈ o)

instance (dt : List (Option Nat)) (o : List Nat) : Decidable (ValidRootOrder dt o) := by
  unfold ValidRootOrder; infer_instance

/-- Property of the immediate-dominator table guaranteed by the gonum
contract when (as the spec premises) every node of the runtime graph is
reachable from the top-level roots: the table describes a tree over all
node IDs `0..n`, rooted at the synthetic root `0`, with `depth` giving
each node's distance from the root. -/
def SpanningDomTree (g : RuntimeGraph) (dt : List (Option Nat))
    (depth : List Nat) : Prop :=
  dt.length = g.graph.length + 1 ∧
  depth.length = g.graph.length + 1 ∧
  dt.getD 0 none = none ∧
  (∀ v ∈ List.range dt.length, v ≠ 0 → (dt.getD v none).isSome = true) ∧
  (∀ v ∈ List.range dt.length, ∀ u ∈ (dt.getD v none).toList,
    u < dt.length ∧ depth.getD v 0 = depth.getD u 0 + 1) ∧
  (∀ v ∈ List.range dt.length, depth.getD v 0 < dt.length)

instance (g : RuntimeGraph) (dt : List (Option Nat)) (depth : List Nat) :
    Decidable (SpanningDomTree g dt depth) := by
  unfold SpanningDomTree; infer_instance

/-! ## Grouper lemmas -/

theorem mergeSteps_of_short_enough (fuel budget : Nat) (ls : List Layer)
    (h : ls.length ≤ budget) : mergeSteps fuel budget ls = ls := by
  cases fuel with
  | zero => rfl
  | succ fuel =>
    cases ls with
    | nil => rfl
    | cons a t =>
      cases t with
      | nil => rfl
      | cons b rest =>
        simp only [List.length_cons] at h
        simp only [mergeSteps]
        rw [if_neg (by omega)]

theorem mergeSteps_length_le (fuel : Nat) :
    ∀ (budget : Nat) (ls : List Layer), 1 ≤ budget →
      ls.length ≤ fuel + budget → (mergeSteps fuel budget ls).length ≤ budget := by
  induction fuel with
  | zero => intro budget ls _ h; simpa [mergeSteps] using h
  | succ fuel ih =>
    intro budget ls hb h
    cases ls with
    | nil => simpa [mergeSteps] using hb
    | cons a t =>
      cases t with
      | nil => simpa [mergeSteps] using hb
      | cons b rest =>
        simp only [mergeSteps]
        by_cases hc : budget < rest.length + 2
        · rw [if_pos hc]
          apply ih budget _ hb
          simp only [List.length_cons] at h ⊢
          omega
        · rw [if_neg hc]
          simp only [List.length_cons]
          omega

theorem mergeSteps_memUnion (fuel : Nat) :
    ∀ (budget : Nat) (ls : List Layer) (p : String),
      (∃ L ∈ mergeSteps fuel budget ls, p ∈ L.contents) ↔ (∃ L ∈ ls, p ∈ L.contents) := by
  induction fuel with
  | zero => intro budget ls p; rfl
  | succ fuel ih =>
    intro budget ls p
    cases ls with
    | nil => rfl
    | cons a t =>
      cases t with
      | nil => rfl
      | cons b rest =>
        simp only [mergeSteps]
        by_cases hc : budget < rest.length + 2
        · rw [if_pos hc, ih]
          constructor
          · rintro ⟨L, hL, hp⟩
            rcases List.mem_cons.1 hL with hL | hL
            · subst hL
              rcases List.mem_append.1 hp with hp | hp
              · exact ⟨a, by simp, hp⟩
              · exact ⟨b, by simp, hp⟩
            · exact ⟨L, by simp [hL], hp⟩
          · rintro ⟨L, hL, hp⟩
            rcases List.mem_cons.1 hL with hL | hL
            · exact ⟨a.merge b, by simp, by simp [Layer.merge, hL ▸ hp]⟩
            · rcases List.mem_cons.1 hL with hL | hL
              · exact ⟨a.merge b, by simp, by simp [Layer.merge, hL ▸ hp]⟩
              · exact ⟨L, by simp [hL], hp⟩
        · rw [if_neg hc]

theorem sortLe_memUnion (le : Layer → Layer → Bool) (ls : List Layer) (p : String) :
    (∃ L ∈ sortLe le ls, p ∈ L.contents) ↔ (∃ L ∈ ls, p ∈ L.contents) := by
  constructor
  · rintro ⟨L, hL, hp⟩; exact ⟨L, (mem_sortLe le L ls).1 hL, hp⟩
  · rintro ⟨L, hL, hp⟩; exact ⟨L, (mem_sortLe le L ls).2 hL, hp⟩

theorem self_mem_ancChain (dt : List (Option Nat)) (fuel v : Nat) :
    v ∈ ancChain dt fuel v := by
  cases fuel with
  | zero => simp [ancChain]
  | succ fuel => simp [ancChain]

theorem chain_to_root (dt : List (Option Nat)) (depth : List Nat)
    (hsome : ∀ v ∈ List.range dt.length, v ≠ 0 → (dt.getD v none).isSome = true)
    (hstep : ∀ v ∈ List.range dt.length, ∀ u ∈ (dt.getD v none).toList,
      u < dt.length ∧ depth.getD v 0 = depth.getD u 0 + 1) :
    ∀ (fuel v : Nat), v < dt.length → v ≠ 0 → depth.getD v 0 < fuel →
      ∃ c, dt.getD c none = some 0 ∧ c ∈ ancChain dt fuel v := by
  intro fuel
  induction fuel with
  | zero => intro v _ _ h; omega
  | succ fuel ih =>
    intro v hvlt hv0 hdepth
    have hs := hsome v (List.mem_range.2 hvlt) hv0
    rcases Option.isSome_iff_exists.1 hs with ⟨u, hu⟩
    have hst := hstep v (List.mem_range.2 hvlt) u (Option.mem_toList.2 (Option.mem_def.2 hu))
    by_cases hu0 : u = 0
    · refine ⟨v, hu0 ▸ hu, ?_⟩
      exact self_mem_ancChain dt (fuel + 1) v
    · have hdu : depth.getD u 0 < fuel := by omega
      rcases ih u hst.1 hu0 hdu with ⟨c, hc, hmem⟩
      refine ⟨c, hc, ?_⟩
      simp only [ancChain, hu]
      exact List.mem_cons_of_mem v hmem

theorem child_lt_length (dt : List (Option Nat)) (c : Nat)
    (hc : dt.getD c none = some 0) : c < dt.length := by
  by_contra h
  rw [List.getD_eq_default dt none (by omega)] at hc
  exact Option.noConfusion hc

theorem inSubtree_root_eq (dt : List (Option Nat)) (c : Nat)
    (hlen : 1 ≤ dt.length) (hroot : dt.getD 0 none = none)
    (h : inSubtree dt c 0 = true) : c = 0 := by
  unfold inSubtree at h
  rcases Nat.exists_eq_add_of_le hlen with ⟨m, hm⟩
  rw [hm] at h
  simp only [Nat.add_comm 1 m] at h
  simp only [ancChain, hroot] at h
  simpa using h

/-- Membership of a path in some layer of a layer list. -/
def memUnion (ls : List Layer) (p : String) : Prop := ∃ L ∈ ls, p ∈ L.contents

/-- C1.  For every runtime graph whose nodes are all reachable from the
top-level roots (so that, per the gonum contract, the dominator tree
spans all nodes: `SpanningDomTree`), every popularity table, every
enumeration order of the root's dominator children and every budget
B ≥ 1, the union of the contents of the layers returned by the grouper's
`Group` function is exactly the set of store paths of the graph — the
full closure of the top-level roots: no store path is missing from every
layer, and no layer contains a path outside the closure. -/
theorem grouper_union (g : RuntimeGraph) (pop : Popularity)
    (dt : List (Option Nat)) (depth : List Nat) (o : List Nat) (budget : Nat)
    (hdt : SpanningDomTree g dt depth) (ho : ValidRootOrder dt o)
    (hb : 1 ≤ budget) (p : String) :
    memUnion (GroupLayers g pop dt o budget) p ↔ p ∈ g.graph.map (·.path) := by
  obtain ⟨hlen, hdlen, hroot, hsome, hstep, hdbound⟩ := hdt
  obtain ⟨hnd, homem, hocomplete⟩ := ho
  unfold memUnion GroupLayers mergeLoop
  rw [mergeSteps_memUnion]
  unfold initialLayers
  rw [sortLe_memUnion]
  constructor
  · rintro ⟨L, hL, hp⟩
    rcases List.mem_map.1 hL with ⟨c, hc, hgl⟩
    subst hgl
    simp only [groupLayer] at hp
    rw [mem_sortLe] at hp
    rcases List.mem_map.1 hp with ⟨v, hv, hpath⟩
    rcases List.mem_filter.1 hv with ⟨hvr, hvs⟩
    have hvlt : v < g.graph.length + 1 := List.mem_range.1 hvr
    have hcchild : dt.getD c none = some 0 := homem c hc
    have hv0 : v ≠ 0 := by
      intro hv0
      subst hv0
      have := inSubtree_root_eq dt c (by omega) hroot hvs
      subst this
      rw [hroot] at hcchild
      exact Option.noConfusion hcchild
    subst hpath
    simp only [nodePath, if_neg hv0]
    rw [List.getD_eq_getElem g.graph _ (by omega)]
    exact List.mem_map.2 ⟨g.graph[v - 1], List.mem_iff_getElem.2 ⟨v - 1, by omega, rfl⟩, rfl⟩
  · intro hp
    rcases List.mem_map.1 hp with ⟨a, ha, hap⟩
    rcases List.mem_iff_getElem.1 ha with ⟨i, hi, hgi⟩
    have hvlt : i + 1 < dt.length := by omega
    have hdlt : depth.getD (i + 1) 0 < dt.length :=
      hdbound (i + 1) (List.mem_range.2 hvlt)
    rcases chain_to_root dt depth hsome hstep dt.length (i + 1) hvlt (by omega) hdlt
      with ⟨c, hc, hmem⟩
    have hco : c ∈ o := hocomplete c (List.mem_range.2 (child_lt_length dt c hc)) hc
    refine ⟨groupLayer g pop dt c, List.mem_map.2 ⟨c, hco, rfl⟩, ?_⟩
    simp only [groupLayer]
    rw [mem_sortLe]
    refine List.mem_map.2 ⟨i + 1, ?_, ?_⟩
    · refine List.mem_filter.2 ⟨List.mem_range.2 (by omega), ?_⟩
      unfold inSubtree
      exact decide_eq_true hmem
    · simp only [nodePath, if_neg (Nat.succ_ne_zero i)]
      rw [Nat.add_sub_cancel, List.getD_eq_getElem g.graph _ hi, hgi, hap]

/-- C6.  For every runtime graph, popularity table, dominator tree,
child enumeration order and budget B ≥ 1, the grouper's `Group` function
returns at most B layers. -/
theorem grouper_budget (g : RuntimeGraph) (pop : Popularity)
    (dt : List (Option Nat)) (o : List Nat) (budget : Nat) (hb : 1 ≤ budget) :
    (GroupLayers g pop dt o budget).length ≤ budget := by
  unfold GroupLayers mergeLoop
  exact mergeSteps_length_le _ budget _ hb (by omega)

theorem mergeSteps_foldl :
    ∀ (fuel budget : Nat) (a : Layer) (rest : List Layer), 1 ≤ budget →
      budget < rest.length + 1 → rest.length + 1 ≤ fuel + budget →
      mergeSteps fuel budget (a :: rest) =
        (List.foldl Layer.merge a (rest.take (rest.length + 1 - budget))) ::
          rest.drop (rest.length + 1 - budget) := by
  intro fuel
  induction fuel with
  | zero => intro budget a rest _ h₁ h₂; omega
  | succ fuel ih =>
    intro budget a rest hb hgt hle
    cases rest with
    | nil => simp only [List.length_nil] at hgt; omega
    | cons b rest =>
      simp only [List.length_cons] at hgt hle ⊢
      simp only [mergeSteps]
      rw [if_pos (by omega)]
      by_cases hstop : budget = rest.length + 1
      · have : rest.length + 1 + 1 - budget = 1 := by omega
        rw [this]
        rw [mergeSteps_of_short_enough fuel budget _ (by simp; omega)]
        simp [List.take_succ_cons, List.drop_succ_cons]
      · have hgt' : budget < rest.length + 1 := by omega
        rw [ih budget (a.merge b) rest hb hgt' (by omega)]
        have hk : rest.length + 1 + 1 - budget = (rest.length + 1 - budget) + 1 := by omega
        rw [hk, List.take_succ_cons, List.drop_succ_cons, List.foldl_cons]

/-- Refinement counterpart of the merge loop, written from the spec's
words for claim C2 (not from the source): while the layer count exceeds
the budget, re-sort the layers ascending by merge rating and merge the
two with the lowest ratings; the merged layer's rating is the sum.  This
is compared against the source's `mergeSteps` above. -/
def specMergeSteps : Nat → Nat → List Layer → List Layer
  | 0, _, ls => ls
  | fuel + 1, budget, ls =>
    if budget < ls.length then
      match sortLe layerLe ls with
      | a :: b :: rest => specMergeSteps fuel budget (a.merge b :: rest)
      | short => short
    else ls

/-- Refinement counterpart of `GroupLayers` following the spec's words
for the merge phase (claim C2). -/
def GroupLayersSpecMerge (g : RuntimeGraph) (pop : Popularity)
    (dt : List (Option Nat)) (rootOrder : List Nat) (budget : Nat) : List Layer :=
  specMergeSteps (initialLayers g pop dt rootOrder).length budget
    (initialLayers g pop dt rootOrder)

/-- Four independent top-level store paths with closure sizes 4, 5, 6
and 7 (hence merge ratings 4, 5, 6, 7 — pairwise distinct, so no
tie-breaking ambiguity exists anywhere in this example). -/
def cexGraph4 : RuntimeGraph :=
  ⟨["pa", "pb", "pc", "pd"],
   [⟨4, "pa", []⟩, ⟨5, "pb", []⟩, ⟨6, "pc", []⟩, ⟨7, "pd", []⟩]⟩

/-- Dominator tree of `cexGraph4`: every node is a child of the root. -/
def cexDt4 : List (Option Nat) := [none, some 0, some 0, some 0, some 0]

/-- Tree depths for `cexDt4`. -/
def cexDepth4 : List Nat := [0, 1, 1, 1, 1]

/-- C2, counterexample.  On four layers with the pairwise distinct merge
ratings 4, 5, 6, 7 and budget 2, the source's grouper merges the three
lowest-rated layers into one (the merged layer is not re-inserted by
rating, so it keeps absorbing the head of the list), putting `pa` and
`pc` into the same layer; the procedure described by the spec (re-sort
after every merge, always pick the two lowest) instead merges 4 with 5
and then 6 with 7, never putting `pa` and `pc` together.  The inputs
satisfy the dominator-tree and enumeration-order contracts. -/
theorem grouper_merge_resort_cex :
    (∃ L ∈ GroupLayers cexGraph4 [] cexDt4 [1, 2, 3, 4] 2,
      "pa" ∈ L.contents ∧ "pc" ∈ L.contents) ∧
    (¬ ∃ L ∈ GroupLayersSpecMerge cexGraph4 [] cexDt4 [1, 2, 3, 4] 2,
      "pa" ∈ L.contents ∧ "pc" ∈ L.contents) ∧
    SpanningDomTree cexGraph4 cexDt4 cexDepth4 ∧
    ValidRootOrder cexDt4 [1, 2, 3, 4] := by decide

/-- C2, amended.  In the grouper's merge phase the layer list is sorted
ascending by merge rating once; afterwards, while the layer count
exceeds the budget B, the first two layers of the current list are
merged (contents concatenated, ratings summed) with the merged layer
staying at the front, and the list is not re-sorted between merges.
Consequently, when the initial sorted list `a :: rest` exceeds the
budget, the result consists of the `length − B + 1` lowest-rated layers
folded into a single layer, followed by the remaining layers
unchanged. -/
theorem grouper_merge_fold (g : RuntimeGraph) (pop : Popularity)
    (dt : List (Option Nat)) (o : List Nat) (budget : Nat) (a : Layer)
    (rest : List Layer) (hb : 1 ≤ budget)
    (hinit : initialLayers g pop dt o = a :: rest)
    (hgt : budget < rest.length + 1) :
    GroupLayers g pop dt o budget =
      (List.foldl Layer.merge a (rest.take (rest.length + 1 - budget))) ::
        rest.drop (rest.length + 1 - budget) := by
  unfold GroupLayers mergeLoop
  rw [hinit]
  exact mergeSteps_foldl _ budget a rest hb hgt (by simp)

/-- C2, witness for the amended theorem: on the four-layer example with
budget 2, the three lowest-rated layers collapse into one layer and the
highest-rated layer survives unchanged. -/
theorem grouper_merge_fold_witness :
    1 ≤ 2 ∧
    initialLayers cexGraph4 [] cexDt4 [1, 2, 3, 4] =
      ⟨["pa"], 4⟩ :: [⟨["pb"], 5⟩, ⟨["pc"], 6⟩, ⟨["pd"], 7⟩] ∧
    2 < ([⟨["pb"], 5⟩, ⟨["pc"], 6⟩, (⟨["pd"], 7⟩ : Layer)] : List Layer).length + 1 ∧
    GroupLayers cexGraph4 [] cexDt4 [1, 2, 3, 4] 2 =
      (List.foldl Layer.merge ⟨["pa"], 4⟩
        ([⟨["pb"], 5⟩, ⟨["pc"], 6⟩, ⟨["pd"], 7⟩].take 2)) ::
        ([⟨["pb"], 5⟩, ⟨["pc"], 6⟩, (⟨["pd"], 7⟩ : Layer)] : List Layer).drop 2 :=
  ⟨by decide, by decide, by decide,
    grouper_merge_fold cexGraph4 [] cexDt4 [1, 2, 3, 4] 2 ⟨["pa"], 4⟩
      [⟨["pb"], 5⟩, ⟨["pc"], 6⟩, ⟨["pd"], 7⟩] (by decide) (by decide) (by decide)⟩

/-- Two equally-sized, equally-popular top-level store paths: both
resulting layers have merge rating 1, a tie. -/
def cexGraph2 : RuntimeGraph := ⟨["pa", "pb"], [⟨1, "pa", []⟩, ⟨1, "pb", []⟩]⟩

/-- Dominator tree of `cexGraph2`. -/
def cexDt2 : List (Option Nat) := [none, some 0, some 0]

/-- Tree depths for `cexDt2`. -/
def cexDepth2 : List Nat := [0, 1, 1]

/-- C7, counterexample.  The order in which the dominator-tree library
enumerates the root's children is unspecified (it inherits Go's
randomised map iteration order), so two runs on identical inputs may
see the orders `[1, 2]` and `[2, 1]`.  With two equal-rated layers and
budget 1 the merge concatenates contents in list order, producing
`["pa", "pb"]` in one run and `["pb", "pa"]` in the other: the output is
not byte-identical across runs. -/
theorem grouper_determinism_cex :
    SpanningDomTree cexGraph2 cexDt2 cexDepth2 ∧
    ValidRootOrder cexDt2 [1, 2] ∧ ValidRootOrder cexDt2 [2, 1] ∧
    GroupLayers cexGraph2 [] cexDt2 [1, 2] 1 ≠
      GroupLayers cexGraph2 [] cexDt2 [2, 1] 1 := by decide

theorem layerLe_trans :
    ∀ a b c : Layer, layerLe a b = true → layerLe b c = true → layerLe a c = true := by
  intro a b c h₁ h₂
  simp only [layerLe, decide_eq_true_eq] at h₁ h₂ ⊢
  omega

theorem layerLe_total : ∀ a b : Layer, (layerLe a b || layerLe b a) = true := by
  intro a b
  simp only [layerLe]
  rcases Nat.le_total a.mergeRating b.mergeRating with h | h
  · simp [h]
  · simp [h]

/-- C7, amended.  The grouper is deterministic up to the enumeration
order of equal-rated layers: whenever the initial per-subtree merge
ratings are pairwise distinct, any two valid enumeration orders of the
root's dominator children produce identical output, including layer
order, the order of contents within each layer, and the merge
ratings. -/
theorem grouper_determinism_distinct (g : RuntimeGraph) (pop : Popularity)
    (dt : List (Option Nat)) (o₁ o₂ : List Nat) (budget : Nat)
    (ho₁ : ValidRootOrder dt o₁) (ho₂ : ValidRootOrder dt o₂)
    (hnd : ((initialLayers g pop dt o₁).map Layer.mergeRating).Nodup) :
    GroupLayers g pop dt o₁ budget = GroupLayers g pop dt o₂ budget := by
  obtain ⟨hnd₁, hmem₁, hcomp₁⟩ := ho₁
  obtain ⟨hnd₂, hmem₂, hcomp₂⟩ := ho₂
  have hop : o₁.Perm o₂ := by
    rw [List.perm_ext_iff_of_nodup hnd₁ hnd₂]
    intro v
    constructor
    · intro hv
      exact hcomp₂ v (List.mem_range.2 (child_lt_length dt v (hmem₁ v hv))) (hmem₁ v hv)
    · intro hv
      exact hcomp₁ v (List.mem_range.2 (child_lt_length dt v (hmem₂ v hv))) (hmem₂ v hv)
  have hperm : (initialLayers g pop dt o₁).Perm (initialLayers g pop dt o₂) := by
    unfold initialLayers
    exact (sortLe_perm _ _).trans ((hop.map _).trans (sortLe_perm _ _).symm)
  have heq : initialLayers g pop dt o₁ = initialLayers g pop dt o₂ := by
    refine sorted_perm_nodup_key_eq layerLe Layer.mergeRating ?_ _ _ hperm ?_ ?_ hnd
    · intro a b h₁ h₂
      simp only [layerLe, decide_eq_true_eq] at h₁ h₂
      omega
    · exact sortLe_pairwise layerLe layerLe_trans layerLe_total _
    · exact sortLe_pairwise layerLe layerLe_trans layerLe_total _
  unfold GroupLayers mergeLoop
  rw [heq]

/-- C7, witness for the amended theorem: with pairwise distinct ratings
4, 5, 6, 7 the two enumeration orders `[1,2,3,4]` and `[4,3,2,1]` yield
identical grouper output. -/
theorem grouper_determinism_distinct_witness :
    ValidRootOrder cexDt4 [1, 2, 3, 4] ∧ ValidRootOrder cexDt4 [4, 3, 2, 1] ∧
    ((initialLayers cexGraph4 [] cexDt4 [1, 2, 3, 4]).map Layer.mergeRating).Nodup ∧
    GroupLayers cexGraph4 [] cexDt4 [1, 2, 3, 4] 2 =
      GroupLayers cexGraph4 [] cexDt4 [4, 3, 2, 1] 2 :=
  ⟨by decide, by decide, by decide,
    grouper_determinism_distinct cexGraph4 [] cexDt4 [1, 2, 3, 4] [4, 3, 2, 1] 2
      (by decide) (by decide) (by decide)⟩

/-- C1, witness: on the two-node example all hypotheses hold and the
grouped union contains exactly the closure's paths. -/
theorem grouper_union_witness :
    SpanningDomTree cexGraph2 cexDt2 cexDepth2 ∧ ValidRootOrder cexDt2 [1, 2] ∧
    1 ≤ 1 ∧
    (memUnion (GroupLayers cexGraph2 [] cexDt2 [1, 2] 1) "pa" ↔
      "pa" ∈ cexGraph2.graph.map (·.path)) :=
  ⟨by decide, by decide, by decide,
    grouper_union cexGraph2 [] cexDt2 cexDepth2 [1, 2] 1 (by decide) (by decide)
      (by decide) "pa"⟩

/-- C6, witness: with budget 1 the two-layer example is merged down to a
single layer, within the budget. -/
theorem grouper_budget_witness :
    1 ≤ 1 ∧ (GroupLayers cexGraph2 [] cexDt2 [1, 2] 1).length ≤ 1 :=
  ⟨by decide, grouper_budget cexGraph2 [] cexDt2 [1, 2] 1 (by decide)⟩

/-! ## Image-name parser (`builder` package)

Go's `strings.Split(name, "/")` always yields at least one element, so
the parser operates on a non-empty list of path components; the
embedding takes that component list directly (splitting on a one-rune
separator is bijective between names and component lists). -/

/-- Architecture as in the Go source: the Nix system tuple and the OCI
image architecture name. -/
structure Architecture where
  nixSystem : String
  imageArch : String
deriving DecidableEq, Repr

/-- Constant `amd64` from the Go source. -/
def amd64 : Architecture := ⟨"x86_64-linux", "amd64"⟩

/-- Constant `arm` from the Go source. -/
def arm : Architecture := ⟨"aarch64-linux", "arm64"⟩

/-- Image as in the Go source (the pre-arm64 version cited by the claim
has no `Arch` field; the field is defaulted to `amd64` there). -/
structure Image where
  name : String
  tag : String
  packages : List String
  arch : Architecture
deriving DecidableEq, Repr

/-- Shell packages of `convenienceNames` in the version of
`server/builder/builder.go` where `cacert` and `iana-etc` are appended
separately by `ImageFromName`. -/
def shellPackages : List String := ["bashInteractive", "coreutils", "moreutils", "nano"]

/-- convenienceNames from `server/builder/builder.go`: a leading `shell`
component is replaced by the shell package set (appended after the
remaining components, matching the Go `append(packages[1:],
shellPackages...)`). -/
def convenienceNames (packages : List String) : List String :=
  if packages.head? = some "shell" then packages.tail ++ shellPackages else packages

/-- Join a list of components with `/` (Go's `strings.Join(pkgs, "/")`). -/
def joinSlash : List String → String
  | [] => ""
  | [a] => a
  | a :: rest => a ++ "/" ++ joinSlash rest

/-- ImageFromName from `server/builder/builder.go`, on the split
component list: expand convenience names, append the baseline packages
`cacert` and `iana-etc`, and sort both the canonical name components and
the package list (`sort.Strings`). -/
def ImageFromName (pkgs : List String) (tag : String) : Image :=
  let expanded := convenienceNames pkgs ++ ["cacert", "iana-etc"]
  { name := joinSlash (sortLe strLe pkgs)
    tag := tag
    packages := sortLe strLe expanded
    arch := amd64 }

/-- C4, counterexample.  The non-empty image name `hello/hello` parses
to the package list `[cacert, hello, hello, iana-etc]`, which contains
the duplicate `hello`: the parser sorts but does not deduplicate. -/
theorem image_packages_nodup_cex :
    (ImageFromName ["hello", "hello"] "latest").packages =
      ["cacert", "hello", "hello", "iana-etc"] ∧
    ¬ (ImageFromName ["hello", "hello"] "latest").packages.Nodup := by decide

/-- C4, amended.  For every non-empty slash-separated image name, the
parsed image's package list is sorted (byte-lexicographically), after
expanding a leading `shell` component and appending the baseline
packages `cacert` and `iana-etc`; duplicates are not removed (a package
occurring twice in the name, or clashing with a baseline or shell
package, occurs twice in the list). -/
theorem image_packages_sorted (pkgs : List String) (tag : String)
    (hne : pkgs ≠ []) :
    (ImageFromName pkgs tag).packages.Pairwise (fun a b => strLe a b = true) := by
  unfold ImageFromName
  exact sortLe_pairwise strLe strLe_trans strLe_total _

/-- C4, witness: the spec's literal example `shell/git/htop` parses to a
sorted package list. -/
theorem image_packages_sorted_witness :
    (["shell", "git", "htop"] : List String) ≠ [] ∧
    (ImageFromName ["shell", "git", "htop"] "latest").packages =
      ["bashInteractive", "cacert", "coreutils", "git", "htop", "iana-etc",
        "moreutils", "nano"] ∧
    (ImageFromName ["shell", "git", "htop"] "latest").packages.Pairwise
      (fun a b => strLe a b = true) :=
  ⟨by decide, by decide,
    image_packages_sorted ["shell", "git", "htop"] "latest" (by decide)⟩

/-- Modelled from the spec: the arm64-aware variant of `ImageFromName`
is missing from the sources (only its tests, `builder_test.go`, and its
caller are present); the spec prescribes the name-component parsing
"split on `/`; if the first segment is `arm64`, set arch; if the next is
`shell`, expand to the fixed shell package set; remaining segments are
package names".  The shell expansion, baseline-package append and
sorting are shared with the in-source `ImageFromName` above. -/
def ImageFromNameArch (pkgs : List String) (tag : String) : Image :=
  let rest := if pkgs.head? = some "arm64" then pkgs.tail else pkgs
  let arch := if pkgs.head? = some "arm64" then arm else amd64
  let expanded := convenienceNames rest ++ ["cacert", "iana-etc"]
  { name := joinSlash (sortLe strLe pkgs)
    tag := tag
    packages := sortLe strLe expanded
    arch := arch }

/-- C5.  An image name whose leading path component is `arm64` parses to
an image with architecture arm64 (image architecture name `arm64`,
rather than the amd64 default), and its package list is exactly that of
the same name with the `arm64` component removed. -/
theorem image_arm64_arch (ps : List String) (tag : String)
    (hne : ps.head? ≠ some "arm64") :
    (ImageFromNameArch ("arm64" :: ps) tag).arch = arm ∧
    (ImageFromNameArch ("arm64" :: ps) tag).packages =
      (ImageFromNameArch ps tag).packages := by
  constructor
  · simp [ImageFromNameArch]
  · simp only [ImageFromNameArch, List.head?_cons, List.tail_cons]
    rw [if_pos trivial, if_neg hne]

/-- C5, witness: `arm64/hello` yields architecture arm64 and packages
`[cacert, hello, iana-etc]`. -/
theorem image_arm64_arch_witness :
    (["hello"] : List String).head? ≠ some "arm64" ∧
    (ImageFromNameArch ["arm64", "hello"] "latest").arch = arm ∧
    (ImageFromNameArch ["arm64", "hello"] "latest").packages =
      ["cacert", "hello", "iana-etc"] :=
  ⟨by decide, (image_arm64_arch ["hello"] "latest" (by decide)).1, by decide⟩

/-! ## Manifest builder (`manifest` package)

JSON serialisation and SHA256 hashing of the serialised config are
performed by Go standard-library packages and are outside the model; the
manifest and config are embedded structurally.  The Go `Manifest`
function sorts and rewrites its `[]Entry` argument in place; the
embedding returns, as a third component, the value held by the caller's
slice after the call returns. -/

/-- Entry mirrors the Go manifest entry: serialised fields plus the
Nixery-internal `MergeRating` and `TarHash`. -/
structure Entry where
  mediaType : String
  size : Int
  digest : String
  mergeRating : Nat
  tarHash : String
deriving DecidableEq, Repr

/-- Layer media type constant (`layerType`). -/
def layerType : String := "application/vnd.docker.image.rootfs.diff.tar.gzip"

/-- Manifest media type constant (`manifestType`). -/
def manifestType : String := "application/vnd.docker.distribution.manifest.v2+json"

/-- Comparator of `Manifest`'s `sort.Slice` call: descending merge
rating (`layers[i].MergeRating > layers[j].MergeRating`). -/
def entryGe (a b : Entry) : Bool := decide (b.mergeRating ≤ a.mergeRating)

/-- Image configuration as built by `configLayer`: fixed architecture
and OS, `rootfs.type = "layers"` and the `diff_ids` list. -/
structure ImageConfig where
  architecture : String
  osName : String
  fsType : String
  diffIDs : List String
deriving DecidableEq, Repr

/-- configLayer from the Go source (structural part). -/
def configLayer (hashes : List String) : ImageConfig :=
  ⟨"amd64", "linux", "layers", hashes⟩

/-- Manifest document (structural part): schema version, media type and
the ordered layer entries. -/
structure ManifestObj where
  schemaVersion : Nat
  mediaType : String
  layers : List Entry
deriving DecidableEq, Repr

/-- Rewrite applied to each entry inside `Manifest`'s loop: the media
type is set and the internal tar hash is cleared. -/
def finalizeEntry (l : Entry) : Entry := { l with mediaType := layerType, tarHash := "" }

/-- Manifest from the Go source (`manifest.Manifest`): sort the entries
in place by descending merge rating, collect each sorted entry's
`TarHash` into the config's `diff_ids` (before clearing it), set every
entry's media type, and emit the manifest with the rewritten entries.
The third component is the caller-visible final value of the argument
slice (the Go function mutates it in place). -/
def Manifest (layers : List Entry) : ManifestObj × ImageConfig × List Entry :=
  let sorted := sortLe entryGe layers
  let hashes := sorted.map (·.tarHash)
  let final := sorted.map finalizeEntry
  (⟨2, manifestType, final⟩, configLayer hashes, final)

theorem entryGe_trans :
    ∀ a b c : Entry, entryGe a b = true → entryGe b c = true → entryGe a c = true := by
  intro a b c h₁ h₂
  simp only [entryGe, decide_eq_true_eq] at h₁ h₂ ⊢
  omega

theorem entryGe_total : ∀ a b : Entry, (entryGe a b || entryGe b a) = true := by
  intro a b
  simp only [entryGe]
  rcases Nat.le_total a.mergeRating b.mergeRating with h | h
  · simp [h]
  · simp [h]

/-- C3.  The manifest builder emits the layer entries in descending
merge-rating order (there is a single sorted rearrangement `sorted` of
the input from which both outputs are read off), and the config's
`rootfs.diff_ids` list contains the layers' uncompressed tar digests in
exactly the order of the manifest's `layers` array. -/
theorem manifest_ordering (layers : List Entry) :
    ∃ sorted : List Entry,
      sorted.Perm layers ∧
      sorted.Pairwise (fun a b => b.mergeRating ≤ a.mergeRating) ∧
      (Manifest layers).1.layers = sorted.map finalizeEntry ∧
      (Manifest layers).2.1.diffIDs = sorted.map (·.tarHash) := by
  refine ⟨sortLe entryGe layers, sortLe_perm entryGe layers, ?_, rfl, rfl⟩
  have := sortLe_pairwise entryGe entryGe_trans entryGe_total layers
  exact this.imp (by intro a b h; simpa [entryGe] using h)

/-- C10.  The Go `Manifest` mutates its argument slice in place; after
the call the caller's slice holds a permutation of the original entries
rewritten so that every media type is the layer media type and every
`TarHash` is the empty string, reordered by descending merge rating, and
the manifest's `layers` array is exactly that final slice value. -/
theorem manifest_in_place (layers : List Entry) :
    ((Manifest layers).2.2).Perm (layers.map finalizeEntry) ∧
    ((Manifest layers).2.2).Pairwise (fun a b => b.mergeRating ≤ a.mergeRating) ∧
    (∀ e ∈ (Manifest layers).2.2, e.mediaType = layerType ∧ e.tarHash = "") ∧
    (Manifest layers).1.layers = (Manifest layers).2.2 := by
  refine ⟨(sortLe_perm entryGe layers).map finalizeEntry, ?_, ?_, rfl⟩
  · have := sortLe_pairwise entryGe entryGe_trans entryGe_total layers
    have hm : ((sortLe entryGe layers).map finalizeEntry).Pairwise
        (fun a b => b.mergeRating ≤ a.mergeRating) := by
      rw [List.pairwise_map]
      exact this.imp (by intro a b h; simpa [entryGe, finalizeEntry] using h)
    exact hm
  · intro e he
    rcases List.mem_map.1 he with ⟨l, _, hl⟩
    subst hl
    exact ⟨rfl, rfl⟩

/-! ## Manifest HTTP handler (`serveManifestTag`)

The handler is embedded as a pure function from the outcomes of its two
effectful calls (the image build and the storage persist) to the ordered
trace of its observable actions: header writes, status writes, response
body writes and storage persists.  SHA256 is outside the model and is
passed in as an abstract digest function. -/

/-- Body payloads written to the HTTP response: either manifest bytes or
the JSON error envelope produced by `writeError`. -/
inductive RespBody where
  | manifestBytes (m : String)
  | errJson (code msg : String)
deriving DecidableEq, Repr

/-- Observable actions of the handler, in program order. -/
inductive Event where
  | addHeader (key value : String)
  | writeStatus (status : Nat)
  | writeBody (b : RespBody)
  | persist (path : String) (bytes : String) (ok : Bool)
deriving DecidableEq, Repr

/-- Outcome of `builder.BuildImage` as observed by the handler: an
error, a structured `not_found` result, or a manifest. -/
inductive BuildOutcome where
  | failure
  | notFound (pkgs : List String)
  | ok (manifest : String)
deriving DecidableEq, Repr

/-- writeError from the Go source: write the status, add the JSON
content type, write the error envelope. -/
def writeErrorEvents (status : Nat) (code msg : String) : List Event :=
  [.writeStatus status, .addHeader "Content-Type" "application/json",
   .writeBody (.errJson code msg)]

/-- serveManifestTag from the Go source: on build failure or `not_found`
write the error response; otherwise add the manifest content type,
persist the manifest under `layers/<sha256>` via the storage backend,
and only on successful persist write the manifest bytes — on persist
failure write the `MANIFEST_UPLOAD` error instead. -/
def serveManifestTag (sha : String → String) (build : BuildOutcome)
    (persistOk : Bool) : List Event :=
  match build with
  | .failure => writeErrorEvents 500 "UNKNOWN" "image build failure"
  | .notFound _ =>
    writeErrorEvents 404 "MANIFEST_UNKNOWN" "Could not find Nix packages"
  | .ok m =>
    .addHeader "Content-Type" manifestType ::
    .persist ("layers/" ++ sha m) m persistOk ::
    (if persistOk then [.writeBody (.manifestBytes m)]
     else writeErrorEvents 500 "MANIFEST_UPLOAD" "could not upload manifest to blob store")

/-- Discipline required by the spec: any manifest bytes written to the
response are preceded by a successful persist of those bytes under
`layers/<their digest>`. -/
def persistedBeforeWrite (sha : String → String) (tr : List Event) : Prop :=
  ∀ i m, tr.get? i = some (.writeBody (.manifestBytes m)) →
    ∃ j, j < i ∧ tr.get? j = some (.persist ("layers/" ++ sha m) m true)

/-- C8.  In `serveManifestTag`, after a successful build the manifest is
persisted to the storage backend under `layers/<sha256 of the manifest
bytes>` before any manifest bytes are written to the response body; and
when persisting fails, no manifest bytes are written at all and a 500
error response is returned instead. -/
theorem serve_manifest_persist_first (sha : String → String)
    (build : BuildOutcome) (persistOk : Bool) :
    persistedBeforeWrite sha (serveManifestTag sha build persistOk) ∧
    (persistOk = false →
      (∀ i m, (serveManifestTag sha build persistOk).get? i ≠
        some (.writeBody (.manifestBytes m))) ∧
      (∀ m, build = .ok m →
        ∃ i, (serveManifestTag sha build persistOk).get? i =
          some (.writeStatus 500))) := by
  cases build with
  | failure =>
    refine ⟨?_, fun _ => ⟨?_, ?_⟩⟩
    · intro i m h
      match i, h with
      | 0, h => exact absurd h (by simp [serveManifestTag, writeErrorEvents])
      | 1, h => exact absurd h (by simp [serveManifestTag, writeErrorEvents])
      | 2, h => exact absurd h (by simp [serveManifestTag, writeErrorEvents])
      | (n + 3), h => exact absurd h (by simp [serveManifestTag, writeErrorEvents])
    · intro i m h
      match i, h with
      | 0, h => exact absurd h (by simp [serveManifestTag, writeErrorEvents])
      | 1, h => exact absurd h (by simp [serveManifestTag, writeErrorEvents])
      | 2, h => exact absurd h (by simp [serveManifestTag, writeErrorEvents])
      | (n + 3), h => exact absurd h (by simp [serveManifestTag, writeErrorEvents])
    · intro m h; exact absurd h (by simp)
  | notFound pkgs =>
    refine ⟨?_, fun _ => ⟨?_, ?_⟩⟩
    · intro i m h
      match i, h with
      | 0, h => exact absurd h (by simp [serveManifestTag, writeErrorEvents])
      | 1, h => exact absurd h (by simp [serveManifestTag, writeErrorEvents])
      | 2, h => exact absurd h (by simp [serveManifestTag, writeErrorEvents])
      | (n + 3), h => exact absurd h (by simp [serveManifestTag, writeErrorEvents])
    · intro i m h
      match i, h with
      | 0, h => exact absurd h (by simp [serveManifestTag, writeErrorEvents])
      | 1, h => exact absurd h (by simp [serveManifestTag, writeErrorEvents])
      | 2, h => exact absurd h (by simp [serveManifestTag, writeErrorEvents])
      | (n + 3), h => exact absurd h (by simp [serveManifestTag, writeErrorEvents])
    · intro m h; exact absurd h (by simp)
  | ok m₀ =>
    cases persistOk with
    | true =>
      refine ⟨?_, by simp⟩
      intro i m h
      match i, h with
      | 0, h => exact absurd h (by simp [serveManifestTag])
      | 1, h => exact absurd h (by simp [serveManifestTag])
      | 2, h =>
        simp only [serveManifestTag, if_pos rfl] at h
        simp only [List.get?] at h
        have hm : m = m₀ := by
          have := Option.some.inj h
          cases this
          rfl
        subst hm
        exact ⟨1, by omega, rfl⟩
      | (n + 3), h => exact absurd h (by simp [serveManifestTag])
    | false =>
      refine ⟨?_, fun _ => ⟨?_, ?_⟩⟩
      · intro i m h
        match i, h with
        | 0, h => exact absurd h (by simp [serveManifestTag])
        | 1, h => exact absurd h (by simp [serveManifestTag])
        | 2, h => exact absurd h (by simp [serveManifestTag, writeErrorEvents])
        | 3, h => exact absurd h (by simp [serveManifestTag, writeErrorEvents])
        | 4, h => exact absurd h (by simp [serveManifestTag, writeErrorEvents])
        | (n + 5), h => exact absurd h (by simp [serveManifestTag, writeErrorEvents])
      · intro i m h
        match i, h with
        | 0, h => exact absurd h (by simp [serveManifestTag])
        | 1, h => exact absurd h (by simp [serveManifestTag])
        | 2, h => exact absurd h (by simp [serveManifestTag, writeErrorEvents])
        | 3, h => exact absurd h (by simp [serveManifestTag, writeErrorEvents])
        | 4, h => exact absurd h (by simp [serveManifestTag, writeErrorEvents])
        | (n + 5), h => exact absurd h (by simp [serveManifestTag, writeErrorEvents])
      · intro m hm
        exact ⟨2, by simp [serveManifestTag, writeErrorEvents]⟩

/-- C8, witness: with a failing persist after a successful build the
trace contains a 500 status and no manifest bytes; with a successful
persist the persist event precedes the body write. -/
theorem serve_manifest_persist_first_witness :
    (∃ i, (serveManifestTag (fun _ => "d0") (.ok "MAN") false).get? i =
      some (.writeStatus 500)) ∧
    (∀ i m, (serveManifestTag (fun _ => "d0") (.ok "MAN") false).get? i ≠
      some (.writeBody (.manifestBytes m))) ∧
    persistedBeforeWrite (fun _ => "d0") (serveManifestTag (fun _ => "d0") (.ok "MAN") true) :=
  ⟨(serve_manifest_persist_first (fun _ => "d0") (.ok "MAN") false).2 rfl |>.2 "MAN" rfl,
   (serve_manifest_persist_first (fun _ => "d0") (.ok "MAN") false).2 rfl |>.1,
   (serve_manifest_persist_first (fun _ => "d0") (.ok "MAN") true).1⟩

/-! ## Single-flight build coordination

Modelled from the spec: the keyed-mutex build orchestrator (the
`kmutex`-based builder holding `State.UploadMutex`) is absent from the
sources — only its caller (`main`, which constructs the state with
`UploadMutex: kmutex.New()`) and its tests are present.  Per the spec,
for each in-flight manifest fingerprint only one builder proceeds;
others wait for its result.  Two concurrent requests for the same
uncached fingerprint are embedded as a two-thread state machine over a
shared cache flag, the per-key mutex and a resolver-invocation counter;
a schedule is the sequence of thread choices, and each atomic step is
one of: consult the cache / acquire the mutex, run the resolver and
populate the cache, or release the mutex.  A thread whose step is not
enabled (the mutex is held by the other thread) stays in place. -/

/-- Program counter of one request thread. -/
inductive SFPC where
  | start
  | crit
  | finished
deriving DecidableEq, Repr

/-- Shared state of two concurrent requests for one fingerprint:
whether the manifest for the key is cached, whether the keyed mutex is
held, how often the resolver was invoked, and both program counters. -/
structure SFState where
  built : Bool
  lockHeld : Bool
  calls : Nat
  pc1 : SFPC
  pc2 : SFPC
deriving DecidableEq, Repr

/-- One atomic step of a thread: at `start`, return the cached result if
present, otherwise acquire the free mutex (or stay blocked); in the
critical section, invoke the resolver and populate the cache on a miss,
otherwise release the mutex and finish. -/
def sfStep (pc : SFPC) (s : SFState) : SFPC × SFState :=
  match pc with
  | .start =>
    if s.built then (.finished, s)
    else if s.lockHeld then (.start, s)
    else (.crit, { s with lockHeld := true })
  | .crit =>
    if s.built then (.finished, { s with lockHeld := false })
    else (.crit, { s with built := true, calls := s.calls + 1 })
  | .finished => (.finished, s)

/-- Step of the two-thread system: `true` steps thread 1, `false`
thread 2. -/
def sfSystemStep (s : SFState) (t : Bool) : SFState :=
  if t then
    let (pc, s') := sfStep s.pc1 s
    { s' with pc1 := pc }
  else
    let (pc, s') := sfStep s.pc2 s
    { s' with pc2 := pc }

/-- Initial state of two concurrent requests for an uncached
fingerprint. -/
def sfInit : SFState := ⟨false, false, 0, .start, .start⟩

/-- Run a schedule of thread choices from the initial state. -/
def sfRun (sched : List Bool) : SFState := sched.foldl sfSystemStep sfInit

/-- Inductive invariant of the single-flight machine. -/
def sfInv (s : SFState) : Prop :=
  (s.built = false → s.calls = 0) ∧
  (s.built = true → s.calls = 1) ∧
  (s.pc1 = .finished → s.built = true) ∧
  (s.pc2 = .finished → s.built = true) ∧
  (s.pc1 = .crit → s.lockHeld = true) ∧
  (s.pc2 = .crit → s.lockHeld = true) ∧
  ¬(s.pc1 = .crit ∧ s.pc2 = .crit)

theorem sfInv_init : sfInv sfInit := by
  refine ⟨fun _ => rfl, ?_, ?_, ?_, ?_, ?_, ?_⟩ <;> simp [sfInit]

theorem sfInv_step (s : SFState) (t : Bool) (h : sfInv s) :
    sfInv (sfSystemStep s t) := by
  obtain ⟨b, l, c, p1, p2⟩ := s
  unfold sfInv sfSystemStep sfStep at *
  cases t <;> cases b <;> cases l <;> cases p1 <;> cases p2 <;>
    simp_all <;> omega

theorem sfInv_run (sched : List Bool) : sfInv (sfRun sched) := by
  unfold sfRun
  generalize hs : sfInit = s₀
  have h₀ : sfInv s₀ := hs ▸ sfInv_init
  clear hs
  induction sched generalizing s₀ with
  | nil => exact h₀
  | cons t ts ih => exact ih _ (sfInv_step s₀ t h₀)

/-- C9.  Under the keyed-mutex single-flight discipline, for every
interleaving of two concurrent requests for the same uncached manifest
fingerprint the resolver is invoked at most once; when both requests
have completed it was invoked exactly once; and at no point are both
builders inside the critical section (one builds, the other waits). -/
theorem single_flight_once (sched : List Bool) :
    (sfRun sched).calls ≤ 1 ∧
    ((sfRun sched).pc1 = .finished → (sfRun sched).pc2 = .finished →
      (sfRun sched).calls = 1) ∧
    ¬((sfRun sched).pc1 = .crit ∧ (sfRun sched).pc2 = .crit) := by
  obtain ⟨h₁, h₂, h₃, _, _, _, h₇⟩ := sfInv_run sched
  refine ⟨?_, ?_, h₇⟩
  · cases hb : (sfRun sched).built
    · simp [h₁ hb]
    · simp [h₂ hb]
  · intro hf₁ _
    exact h₂ (h₃ hf₁)

/-- C9, witness: the schedule where request 1 acquires the mutex,
resolves, releases, and then request 2 observes the cached result,
completes both requests having invoked the resolver exactly once. -/
theorem single_flight_once_witness :
    (sfRun [true, true, true, false]).pc1 = .finished ∧
    (sfRun [true, true, true, false]).pc2 = .finished ∧
    (sfRun [true, true, true, false]).calls = 1 ∧
    (sfRun [true, true, true, false]).calls ≤ 1 :=
  ⟨by decide, by decide,
   (single_flight_once [true, true, true, false]).2.1 (by decide) (by decide),
   (single_flight_once [true, true, true, false]).1⟩
